import Mathlib

/-!
Shallow embedding of `security.py` from the repository `youyouzz/infinite-AI`
(directory `long-running-harness`): a command allowlist gate for an autonomous
coding agent.  Strings are modelled at the `List Char` level (`String.data`);
Python library functions (`re.sub`, `re.split`, `str.split`, `str.strip`,
`shlex.split`) are modelled by explicit scanners that follow their documented
semantics for the patterns actually used by the source.
-/

/-- The character class of the Python regex `\s` and of `str.split()` /
`str.strip()` for ASCII input: space, tab, newline, carriage return,
vertical tab, form feed. -/
def isPyWs (c : Char) : Bool :=
  c = ' ' || c = '\t' || c = '\n' || c = '\r' || c = '\x0b' || c = '\x0c'

/-- Length of the maximal whitespace prefix of a character list. -/
def wsRun : List Char → Nat
  | [] => 0
  | c :: cs => if isPyWs c then wsRun cs + 1 else 0

/-- Python `str.split()` with no argument: split on runs of whitespace,
discarding empty pieces.  Accumulator holds the current word reversed. -/
def pySplitGo : List Char → List Char → List (List Char)
  | acc, [] => if acc = [] then [] else [acc.reverse]
  | acc, c :: cs =>
      if isPyWs c then
        if acc = [] then pySplitGo [] cs else acc.reverse :: pySplitGo [] cs
      else pySplitGo (c :: acc) cs

/-- Python `str.split()` with no argument. -/
def pySplit (s : List Char) : List (List Char) :=
  pySplitGo [] s

/-- Python `str.strip()`: drop whitespace from both ends. -/
def pyStrip (s : List Char) : List Char :=
  ((s.dropWhile isPyWs).reverse.dropWhile isPyWs).reverse

/-- Python `re.split(r";", s)` (equivalently `s.split(";")`): split at every
semicolon, keeping empty pieces. -/
def splitSemiGo : List Char → List Char → List (List Char)
  | acc, [] => [acc.reverse]
  | acc, c :: cs =>
      if c = ';' then acc.reverse :: splitSemiGo [] cs
      else splitSemiGo (c :: acc) cs

/-- Python `re.split(r";", s)`. -/
def splitSemi (s : List Char) : List (List Char) :=
  splitSemiGo [] s

/-- One pass of Python `re.sub(pat, " ", s)` for the separator patterns used in
`extract_commands`: `pat` is optional whitespace (`needWs = false`, patterns
`\s*;\s*` and `\s*\|\s*`) or required whitespace (`needWs = true`, patterns
`\s+&&\s+` and `\s+\|\|\s+`) around the literal `lit`.  Matches are found
leftmost and non-overlapping, greedy in the surrounding whitespace, exactly as
Python scans them; each match is replaced by a single space.  The `Nat`
argument counts characters of a found match still to be skipped. -/
def subSepGo (lit : List Char) (needWs : Bool) : Nat → List Char → List Char
  | 0, [] => []
  | 0, c :: cs =>
      if (!needWs || decide (1 ≤ wsRun (c :: cs)))
          && lit.isPrefixOf ((c :: cs).drop (wsRun (c :: cs)))
          && (!needWs
            || decide (1 ≤ wsRun (((c :: cs).drop (wsRun (c :: cs))).drop lit.length))) then
        ' ' :: subSepGo lit needWs
          (wsRun (c :: cs) + lit.length
            + wsRun (((c :: cs).drop (wsRun (c :: cs))).drop lit.length) - 1) cs
      else
        c :: subSepGo lit needWs 0 cs
  | _ + 1, [] => []
  | skip + 1, _ :: cs => subSepGo lit needWs skip cs

/-- Python `re.sub` of one separator pattern by a single space. -/
def reSubSep (lit : String) (needWs : Bool) (s : List Char) : List Char :=
  subSepGo lit.data needWs 0 s

/-- Step 1 of `extract_commands` (security.py lines 50-52): the four
substitutions `\s*;\s*`, `\s+&&\s+`, `\s+\|\|\s+`, `\s*\|\s*`, applied in this
order, each replacing every match by a single space. -/
def flattenSeps (s : List Char) : List Char :=
  reSubSep "|" false (reSubSep "||" true (reSubSep "&&" true (reSubSep ";" false s)))

/-- Python `part.split("/")[-1]`: the substring after the last slash. -/
def afterLastSlash (l : List Char) : List Char :=
  (l.reverse.takeWhile (fun c => c ≠ '/')).reverse

/-- Per-token processing of `extract_commands` (security.py lines 54-60):
skip tokens that are empty, start with `-`, or contain `=`; strip the path
prefix; keep a `.sh` name whole, otherwise truncate at the first dot
(`cmd.split(".")[0]`); drop the result when it is empty
(the `if cmd_to_add` truthiness test on line 61). -/
def normalizeToken (part : List Char) : Option String :=
  if part = [] || part.head? = some '-' || part.contains '=' then none
  else
    let cmd := afterLastSlash part
    let cmdToAdd :=
      if ".sh".data.isSuffixOf cmd then cmd
      else if cmd.contains '.' then cmd.takeWhile (fun c => c ≠ '.') else cmd
    if cmdToAdd = [] then none else some (String.mk cmdToAdd)

/-- The accumulation loop of `extract_commands` (lines 53-62): append each
normalized name unless already present (`cmd_to_add not in commands`). -/
def extractLoop (acc : List String) : List (List Char) → List String
  | [] => acc
  | p :: ps =>
      match normalizeToken p with
      | none => extractLoop acc ps
      | some c => if c ∈ acc then extractLoop acc ps else extractLoop (acc ++ [c]) ps

/-- `extract_commands` (security.py lines 47-63): flatten separators to
spaces, split on whitespace, normalize and deduplicate the tokens; if nothing
survives, return the sentinel `["unknown"]`. -/
def extract_commands (s : String) : List String :=
  if extractLoop [] (pySplit (flattenSeps s.data)) = [] then ["unknown"]
  else extractLoop [] (pySplit (flattenSeps s.data))

/-- The scanner of `re.split(r"\s*(?:&&|\|\|)\s*", s)` (security.py line 37):
a delimiter is optional whitespace, then `&&` or `||`, then optional
whitespace, found leftmost and greedy; pieces between delimiters are returned,
empty pieces included.  The `Nat` argument counts delimiter characters still
to be skipped; the first list accumulates the current piece reversed. -/
def splitSegGo : Nat → List Char → List Char → List (List Char)
  | 0, acc, [] => [acc.reverse]
  | 0, acc, c :: cs =>
      if "&&".data.isPrefixOf ((c :: cs).drop (wsRun (c :: cs)))
          || "||".data.isPrefixOf ((c :: cs).drop (wsRun (c :: cs))) then
        acc.reverse :: splitSegGo
          (wsRun (c :: cs) + 2
            + wsRun (((c :: cs).drop (wsRun (c :: cs))).drop 2) - 1) [] cs
      else
        splitSegGo 0 (c :: acc) cs
  | _ + 1, acc, [] => [acc.reverse]
  | skip + 1, acc, _ :: cs => splitSegGo skip acc cs

/-- Python `re.split(r"\s*(?:&&|\|\|)\s*", s)`. -/
def reSplitSeg (s : List Char) : List (List Char) :=
  splitSegGo 0 [] s

/-- `split_command_segments` (security.py lines 35-44): split on `&&`/`||`,
then on `;`, strip each piece, keep the non-empty ones in order. -/
def split_command_segments (s : String) : List String :=
  ((((reSplitSeg s.data).flatMap splitSemi).map pyStrip).filter
    (fun l => decide (l ≠ []))).map (fun l => String.mk l)

/-- The whitespace class of Python `shlex`: `shlex.whitespace` is the four
characters space, tab, carriage return, newline. -/
def isShWs (c : Char) : Bool :=
  c = ' ' || c = '\t' || c = '\r' || c = '\n'

/-- The single-quote character (codepoint 39). -/
def squote : Char := Char.ofNat 39

/-- Scan the body of a single-quoted section in posix `shlex`: everything up
to the next single quote is literal (no escapes).  Returns the content and the
remainder after the closing quote; `none` models the Python
`ValueError("No closing quotation")`. -/
def scanSingleQ : List Char → Option (List Char × List Char)
  | [] => none
  | c :: cs =>
      if c = squote then some ([], cs)
      else (fun p => (c :: p.1, p.2)) <$> scanSingleQ cs

/-- Scan the body of a double-quoted section in posix `shlex`: backslash
escapes only a backslash or a double quote; before any other character the
backslash itself is kept.  `none` models the unbalanced-quote or
trailing-escape `ValueError`. -/
def scanDoubleQ : List Char → Option (List Char × List Char)
  | [] => none
  | '"' :: cs => some ([], cs)
  | '\\' :: [] => none
  | '\\' :: d :: cs =>
      if d = '\\' || d = '"' then (fun p => (d :: p.1, p.2)) <$> scanDoubleQ cs
      else (fun p => ('\\' :: d :: p.1, p.2)) <$> scanDoubleQ cs
  | c :: cs => (fun p => (c :: p.1, p.2)) <$> scanDoubleQ cs

/-- The state machine of Python `shlex.split(s)` (posix mode, whitespace
split): `cur` is the current token reversed, `started` records whether a
token is in progress (a quoted empty string yields an empty token), `toks`
accumulates finished tokens reversed.  Outside quotes a backslash escapes any
single character; a trailing backslash is a `ValueError` (`none`).  The fuel
is `length + 1`, enough because every step consumes at least one character. -/
def shlexAux : Nat → List Char → List Char → Bool → List String → Option (List String)
  | 0, _, _, _, _ => none
  | _ + 1, [], cur, started, toks =>
      some ((if started then String.mk cur.reverse :: toks else toks).reverse)
  | fuel + 1, c :: cs, cur, started, toks =>
      if isShWs c then
        if started then shlexAux fuel cs [] false (String.mk cur.reverse :: toks)
        else shlexAux fuel cs [] false toks
      else if c = squote then
        match scanSingleQ cs with
        | none => none
        | some (content, rest) => shlexAux fuel rest (content.reverse ++ cur) true toks
      else if c = '"' then
        match scanDoubleQ cs with
        | none => none
        | some (content, rest) => shlexAux fuel rest (content.reverse ++ cur) true toks
      else if c = '\\' then
        match cs with
        | [] => none
        | d :: ds => shlexAux fuel ds (d :: cur) true toks
      else shlexAux fuel cs (c :: cur) true toks

/-- Python `shlex.split(s)`: `none` models a raised `ValueError`. -/
def shlexSplit (s : String) : Option (List String) :=
  shlexAux (s.data.length + 1) s.data [] false []

/-- Python `s.startswith(pre)`. -/
def pyStartsWith (s pre : String) : Bool :=
  pre.data.isPrefixOf s.data

/-- Executable check that `pat` occurs as a contiguous infix of a character
list (used to state substring facts decidably). -/
def occursIn (pat : List Char) : List Char → Bool
  | [] => pat.isPrefixOf ([] : List Char)
  | c :: cs => pat.isPrefixOf (c :: cs) || occursIn pat cs

/-- Python `s.endswith(suf)`. -/
def pyEndsWith (s suf : String) : Bool :=
  suf.data.isSuffixOf s.data

/-- The set `allowed_process_names` of `validate_pkill_command`
(security.py line 68). -/
def allowed_process_names : List String :=
  ["node", "npm", "npx", "vite", "next"]

/-- The reason string of `validate_pkill_command` on a disallowed target
(line 87): the Python f-string renders the set `allowed_process_names`; set
iteration order is not deterministic across processes, this is one rendering
containing all five names. -/
def pkill_deny_reason : String :=
  "pkill only allowed for dev processes: \x7b\x27node\x27, \x27npm\x27, \x27npx\x27, \x27vite\x27, \x27next\x27\x7d"

/-- Python `target.split()[0]` (line 82).  When the token consists entirely of
whitespace, `target.split()` is empty and the Python code raises `IndexError`;
that case is unreachable in every statement below (the arbitrary total value
chosen here is the token itself, which is never in `allowed_process_names`). -/
def pkillFirstWord (t : String) : String :=
  match pySplit t.data with
  | w :: _ => String.mk w
  | [] => t

/-- `validate_pkill_command` (security.py lines 66-87). -/
def validate_pkill_command (s : String) : Bool × String :=
  match shlexSplit s with
  | none => (false, "Could not parse pkill command")
  | some tokens =>
      if tokens = [] then (false, "Empty pkill command")
      else
        match (tokens.tail.filter (fun t => !pyStartsWith t "-")).getLast? with
        | none => (false, "pkill requires a process name")
        | some target0 =>
            if (if ' ' ∈ target0.data then pkillFirstWord target0 else target0)
                ∈ allowed_process_names then (true, "")
            else (false, pkill_deny_reason)

/-- The characters `u`, `g`, `o`, `a` of the chmod mode pattern. -/
def isUgoa (c : Char) : Bool :=
  c = 'u' || c = 'g' || c = 'o' || c = 'a'

/-- A character list consisting of zero or more of `u,g,o,a` followed by
exactly `+x`: the language of the regex body `[ugoa]*\+x` anchored at both
ends.  Since `+` is not in `[ugoa]`, greedy matching makes this equivalent to
dropping the maximal `[ugoa]` prefix and requiring `+x` to remain. -/
def chmodModeCore (l : List Char) : Bool :=
  l.dropWhile isUgoa == ['+', 'x']

/-- Python `re.match(r"^[ugoa]*\+x$", mode) is not None` (line 115).  In
Python, `$` matches at the end of the string or just before a newline at the
end of the string, so a mode with one trailing newline is also accepted. -/
def reMatchChmodMode (m : String) : Bool :=
  chmodModeCore m.data || (m.data.getLast? == some '\n' && chmodModeCore m.data.dropLast)

/-- The token loop of `validate_chmod_command` (lines 98-116): any token
starting with `-` denies outright; the first other token is the mode, the
rest are files; then the mode presence, file presence, and mode pattern
checks in source order. -/
def chmodLoop : Option String → List String → List String → Bool × String
  | mode, files, [] =>
      match mode with
      | none => (false, "chmod requires a mode")
      | some m =>
          if files = [] then (false, "chmod requires at least one file")
          else if reMatchChmodMode m then (true, "")
          else (false, "chmod only allowed with +x mode, got: " ++ m)
  | mode, files, t :: ts =>
      if pyStartsWith t "-" then (false, "chmod flags are not allowed")
      else
        match mode with
        | none => chmodLoop (some t) files ts
        | some m => chmodLoop (some m) (files ++ [t]) ts

/-- `validate_chmod_command` (security.py lines 90-118). -/
def validate_chmod_command (s : String) : Bool × String :=
  match shlexSplit s with
  | none => (false, "Could not parse chmod command")
  | some [] => (false, "Not a chmod command")
  | some (t :: ts) =>
      if t = "chmod" then chmodLoop none [] ts
      else (false, "Not a chmod command")

/-- `validate_init_script` (security.py lines 121-134). -/
def validate_init_script (s : String) : Bool × String :=
  match shlexSplit s with
  | none => (false, "Could not parse init script command")
  | some [] => (false, "Empty command")
  | some (script :: _) =>
      if script = "./init.sh" || pyEndsWith script "/init.sh" then (true, "")
      else (false, "Only ./init.sh is allowed, got: " ++ script)

/-- `ALLOWED_COMMANDS` (security.py lines 16-32). -/
def ALLOWED_COMMANDS : List String :=
  ["ls", "cat", "head", "tail", "wc", "grep",
   "cp", "mkdir", "chmod",
   "pwd",
   "npm", "node",
   "git",
   "ps", "lsof", "sleep", "pkill",
   "init.sh"]

/-- `COMMANDS_NEEDING_EXTRA_VALIDATION` (security.py line 32). -/
def COMMANDS_NEEDING_EXTRA_VALIDATION : List String :=
  ["pkill", "chmod", "init.sh"]

/-- `get_command_for_validation` (security.py lines 137-143): the first
segment whose extracted commands contain `cmd`, or the empty string. -/
def get_command_for_validation (cmd : String) (segments : List String) : String :=
  match segments.find? (fun seg => decide (cmd ∈ extract_commands seg)) with
  | some seg => seg
  | none => ""

/-- The `elif` dispatch of `bash_security_hook` (lines 176-184). -/
def run_extra_validation (cmd seg : String) : Bool × String :=
  if cmd = "pkill" then validate_pkill_command seg
  else if cmd = "chmod" then validate_chmod_command seg
  else if cmd = "init.sh" then validate_init_script seg
  else (true, "")

/-- The decision returned by the hook: the empty dict (allow) or
`{"decision": "block", "reason": ...}`. -/
inductive Decision where
  | allow : Decision
  | block : String → Decision
deriving DecidableEq

/-- The allowlist reason string of line 169. -/
def notAllowedReason (cmd : String) : String :=
  "Command \x27" ++ cmd ++ "\x27 is not in the allowed commands list"

/-- Line 175 of the hook: `get_command_for_validation(cmd, segments) or
command` — the owning segment, falling back to the whole command string when
no segment matches (Python `or` on the falsy empty string). -/
def gateSegment (command : String) (segments : List String) (cmd : String) : String :=
  if get_command_for_validation cmd segments = "" then command
  else get_command_for_validation cmd segments

/-- The per-name loop of `bash_security_hook` (lines 166-187): allowlist
membership, then extra validation on the owning segment, short-circuiting on
the first failure. -/
def gateLoop (command : String) (segments : List String) : List String → Decision
  | [] => .allow
  | cmd :: rest =>
      if cmd ∈ ALLOWED_COMMANDS then
        if cmd ∈ COMMANDS_NEEDING_EXTRA_VALIDATION then
          if (run_extra_validation cmd (gateSegment command segments cmd)).1 then
            gateLoop command segments rest
          else .block (run_extra_validation cmd (gateSegment command segments cmd)).2
        else gateLoop command segments rest
      else .block (notAllowedReason cmd)

/-- `bash_security_hook` (security.py lines 146-189), restricted to its
command-string argument: the hook is called with `tool_name = "Bash"` and
`command` drawn from the tool input; the surrounding dict plumbing is not
modelled.  The `if not commands` branch of line 159 is kept verbatim even
though `extract_commands` never returns an empty list. -/
def bash_security_hook (command : String) : Decision :=
  if command = "" then .allow
  else if extract_commands command = [] then
    .block ("Could not parse command for security validation: " ++ command)
  else
    gateLoop command (split_command_segments command) (extract_commands command)

/-- First-occurrence deduplication, as the claims describe the extractor
output: keep each name the first time it appears. -/
def firstDedup (l : List String) : List String :=
  l.foldl (fun acc x => if x ∈ acc then acc else acc ++ [x]) []

theorem extractLoop_eq_foldl (ps : List (List Char)) (acc : List String) :
    extractLoop acc ps
      = (ps.filterMap normalizeToken).foldl
          (fun a x => if x ∈ a then a else a ++ [x]) acc := by
  induction ps generalizing acc with
  | nil => rfl
  | cons p ps ih =>
      cases h : normalizeToken p with
      | none => simp [extractLoop, h, ih]
      | some c =>
          by_cases hc : c ∈ acc <;> simp [extractLoop, h, hc, ih]

theorem dedupFoldl_ne_nil (l : List String) (acc : List String) (h : acc ≠ []) :
    l.foldl (fun a x => if x ∈ a then a else a ++ [x]) acc ≠ [] := by
  induction l generalizing acc with
  | nil => exact h
  | cons x xs ih =>
      by_cases hx : x ∈ acc
      · simpa [hx] using ih acc h
      · simp only [List.foldl_cons, if_neg hx]
        exact ih (acc ++ [x]) (by simp)

theorem dedupFoldl_mem (l : List String) (acc : List String) (x : String)
    (h : x ∈ acc) :
    x ∈ l.foldl (fun a y => if y ∈ a then a else a ++ [y]) acc := by
  induction l generalizing acc with
  | nil => exact h
  | cons y ys ih =>
      by_cases hy : y ∈ acc
      · simpa [hy] using ih acc h
      · simp only [List.foldl_cons, if_neg hy]
        exact ih (acc ++ [y]) (by simp [h])

theorem dedupFoldl_mem_of_mem (l : List String) (acc : List String) (x : String)
    (h : x ∈ l) :
    x ∈ l.foldl (fun a y => if y ∈ a then a else a ++ [y]) acc := by
  induction l generalizing acc with
  | nil => cases h
  | cons y ys ih =>
      rcases List.mem_cons.mp h with rfl | hmem
      · by_cases hy : x ∈ acc
        · simpa [hy] using dedupFoldl_mem ys acc x hy
        · simp only [List.foldl_cons, if_neg hy]
          exact dedupFoldl_mem ys (acc ++ [x]) x (by simp)
      · by_cases hy : y ∈ acc <;> simp only [List.foldl_cons, if_pos, if_neg, hy] <;>
          first
            | exact ih acc hmem
            | exact ih (acc ++ [y]) hmem

theorem dedupFoldl_nodup (l : List String) (acc : List String) (h : acc.Nodup) :
    (l.foldl (fun a y => if y ∈ a then a else a ++ [y]) acc).Nodup := by
  induction l generalizing acc with
  | nil => exact h
  | cons y ys ih =>
      by_cases hy : y ∈ acc
      · simpa [hy] using ih acc h
      · simp only [List.foldl_cons, if_neg hy]
        exact ih (acc ++ [y]) (by simp [List.nodup_append, h, hy])

theorem subSepGo_mem (lit : List Char) (needWs : Bool) :
    ∀ (s : List Char) (skip : Nat) (c : Char),
      c ∈ subSepGo lit needWs skip s → c = ' ' ∨ c ∈ s := by
  intro s
  induction s with
  | nil =>
      intro skip c h
      cases skip <;> simp [subSepGo] at h
  | cons a cs ih =>
      intro skip c h
      cases skip with
      | succ k =>
          rcases ih k c h with h' | h'
          · exact Or.inl h'
          · exact Or.inr (List.mem_cons_of_mem _ h')
      | zero =>
          simp only [subSepGo] at h
          split at h
          · rcases List.mem_cons.mp h with rfl | h'
            · exact Or.inl rfl
            · rcases ih _ c h' with h'' | h''
              · exact Or.inl h''
              · exact Or.inr (List.mem_cons_of_mem _ h'')
          · rcases List.mem_cons.mp h with rfl | h'
            · exact Or.inr (List.mem_cons_self _ _)
            · rcases ih _ c h' with h'' | h''
              · exact Or.inl h''
              · exact Or.inr (List.mem_cons_of_mem _ h'')

theorem subSepGo_single (d : Char) (hd : isPyWs d = false) :
    ∀ (s : List Char) (skip : Nat), d ∉ subSepGo [d] false skip s := by
  intro s
  induction s with
  | nil =>
      intro skip
      cases skip <;> simp [subSepGo]
  | cons a cs ih =>
      intro skip
      cases skip with
      | succ k => exact ih k
      | zero =>
          simp only [subSepGo]
          split
          · intro h
            rcases List.mem_cons.mp h with h' | h'
            · rw [h'] at hd; simp [isPyWs] at hd
            · exact ih _ h'
          · rename_i hcond
            intro h
            rcases List.mem_cons.mp h with h' | h'
            · subst h'
              apply hcond
              have hw : wsRun (d :: cs) = 0 := by simp [wsRun, hd]
              simp [hw, List.isPrefixOf]
            · exact ih _ h'

theorem flattenSeps_no_semi (s : List Char) : ';' ∉ flattenSeps s := by
  intro h
  unfold flattenSeps reSubSep at h
  rcases subSepGo_mem _ _ _ _ _ h with h | h
  · simp at h
  rcases subSepGo_mem _ _ _ _ _ h with h | h
  · simp at h
  rcases subSepGo_mem _ _ _ _ _ h with h | h
  · simp at h
  exact subSepGo_single ';' (by decide) _ _ h

theorem flattenSeps_no_pipe (s : List Char) : '|' ∉ flattenSeps s := by
  intro h
  unfold flattenSeps reSubSep at h
  exact subSepGo_single '|' (by decide) _ _ h

theorem splitSemiGo_no_semi :
    ∀ (s acc : List Char), ';' ∉ s → splitSemiGo acc s = [acc.reverse ++ s] := by
  intro s
  induction s with
  | nil => intro acc _; simp [splitSemiGo]
  | cons a cs ih =>
      intro acc h
      have ha : a ≠ ';' := fun hc => h (hc ▸ List.mem_cons_self _ _)
      have hcs : ';' ∉ cs := fun hc => h (List.mem_cons_of_mem _ hc)
      simp only [splitSemiGo, if_neg ha, ih (a :: acc) hcs]
      simp

theorem splitSegGo_noSep :
    ∀ (s acc : List Char),
      ¬ ("&&".data <:+: s) → ¬ ("||".data <:+: s) →
      splitSegGo 0 acc s = [acc.reverse ++ s] := by
  intro s
  induction s with
  | nil => intro acc _ _; simp [splitSegGo]
  | cons a cs ih =>
      intro acc hAmp hPipe
      have hpre : ∀ lit : List Char, ¬ (lit <:+: (a :: cs)) →
          lit.isPrefixOf ((a :: cs).drop (wsRun (a :: cs))) = false := by
        intro lit hlit
        by_contra hb
        simp only [Bool.not_eq_false] at hb
        obtain ⟨r, hr⟩ := List.isPrefixOf_iff_prefix.mp hb
        obtain ⟨u, hu⟩ := List.drop_suffix (wsRun (a :: cs)) (a :: cs)
        exact hlit ⟨u, r, by rw [← hu, ← hr]; simp [List.append_assoc]⟩
      have hAcs : ¬ ("&&".data <:+: cs) := fun hc => hAmp (List.infix_cons hc)
      have hPcs : ¬ ("||".data <:+: cs) := fun hc => hPipe (List.infix_cons hc)
      simp [splitSegGo, hpre _ hAmp, hpre _ hPipe, ih (a :: acc) hAcs hPcs]

theorem split_command_segments_ne_empty (s : String) :
    ∀ x ∈ split_command_segments s, x ≠ "" := by
  intro x hx
  unfold split_command_segments at hx
  rcases List.mem_map.mp hx with ⟨l, hl, rfl⟩
  have hne : l ≠ [] := of_decide_eq_true (List.mem_filter.mp hl).2
  intro hc
  exact hne (congrArg String.data hc)

theorem split_command_segments_noSep (s : String)
    (h1 : ¬ ("&&".data <:+: s.data)) (h2 : ¬ ("||".data <:+: s.data))
    (h3 : ';' ∉ s.data) (h4 : pyStrip s.data ≠ []) :
    split_command_segments s = [String.mk (pyStrip s.data)] := by
  unfold split_command_segments reSplitSeg
  rw [splitSegGo_noSep s.data [] h1 h2]
  simp only [List.flatMap_cons, List.flatMap_nil, List.nil_append, List.append_nil,
    List.reverse_nil]
  unfold splitSemi
  rw [splitSemiGo_no_semi s.data [] h3]
  simp [h4]

theorem gateLoop_allow_mem (command : String) (segments : List String) :
    ∀ L, gateLoop command segments L = .allow → ∀ c ∈ L, c ∈ ALLOWED_COMMANDS := by
  intro L
  induction L with
  | nil => simp
  | cons cmd rest ih =>
      intro h c hc
      simp only [gateLoop] at h
      by_cases hA : cmd ∈ ALLOWED_COMMANDS
      · rw [if_pos hA] at h
        rcases List.mem_cons.mp hc with rfl | hmem
        · exact hA
        · by_cases hE : cmd ∈ COMMANDS_NEEDING_EXTRA_VALIDATION
          · rw [if_pos hE] at h
            by_cases hv : (run_extra_validation cmd (gateSegment command segments cmd)).1
            · rw [if_pos hv] at h
              exact ih h c hmem
            · rw [if_neg hv] at h
              exact absurd h (by simp)
          · rw [if_neg hE] at h
            exact ih h c hmem
      · rw [if_neg hA] at h
        exact absurd h (by simp)

theorem gateLoop_first_bad (command : String) (segments : List String)
    (pre : List String) (bad : String)
    (hpre : ∀ c ∈ pre, c ∈ ALLOWED_COMMANDS ∧
      (c ∈ COMMANDS_NEEDING_EXTRA_VALIDATION →
        (run_extra_validation c (gateSegment command segments c)).1 = true))
    (hbad : bad ∉ ALLOWED_COMMANDS) :
    ∀ rest, gateLoop command segments (pre ++ bad :: rest)
      = .block (notAllowedReason bad) := by
  induction pre with
  | nil =>
      intro rest
      simp only [List.nil_append, gateLoop, if_neg hbad]
  | cons c pre' ih =>
      intro rest
      obtain ⟨hA, hEV⟩ := hpre c (List.mem_cons_self _ _)
      have hpre' : ∀ c' ∈ pre', c' ∈ ALLOWED_COMMANDS ∧
          (c' ∈ COMMANDS_NEEDING_EXTRA_VALIDATION →
            (run_extra_validation c' (gateSegment command segments c')).1 = true) :=
        fun c' hc' => hpre c' (List.mem_cons_of_mem _ hc')
      simp only [List.cons_append, gateLoop, if_pos hA]
      by_cases hE : c ∈ COMMANDS_NEEDING_EXTRA_VALIDATION
      · rw [if_pos hE, if_pos (hEV hE)]
        exact ih hpre' rest
      · rw [if_neg hE]
        exact ih hpre' rest

theorem not_infix_of_occursIn_false :
    ∀ (s pat : List Char), occursIn pat s = false → ¬ (pat <:+: s) := by
  intro s
  induction s with
  | nil =>
      intro pat h hc
      rw [List.infix_nil] at hc
      subst hc
      simp [occursIn, List.isPrefixOf] at h
  | cons c cs ih =>
      intro pat h hc
      simp only [occursIn, Bool.or_eq_false_iff] at h
      rcases List.infix_cons_iff.mp hc with hp | hi
      · rw [List.isPrefixOf_iff_prefix.mpr hp] at h
        exact absurd h.1 (by simp)
      · exact ih pat h.2 hi

theorem extract_commands_ne_nil (s : String) : extract_commands s ≠ [] := by
  unfold extract_commands
  split
  · simp
  · rename_i h
    exact h

theorem bash_security_hook_eq_loop (s : String) (hs : s ≠ "") :
    bash_security_hook s
      = gateLoop s (split_command_segments s) (extract_commands s) := by
  unfold bash_security_hook
  rw [if_neg hs, if_neg (extract_commands_ne_nil s)]

theorem gateLoop_all_plain_allow (command : String) (segments : List String) :
    ∀ L, (∀ c ∈ L, c ∈ ALLOWED_COMMANDS ∧ c ∉ COMMANDS_NEEDING_EXTRA_VALIDATION) →
      gateLoop command segments L = .allow := by
  intro L
  induction L with
  | nil => intro _; rfl
  | cons cmd rest ih =>
      intro h
      obtain ⟨hA, hE⟩ := h cmd (List.mem_cons_self _ _)
      simp only [gateLoop, if_pos hA, if_neg hE]
      exact ih fun c hc => h c (List.mem_cons_of_mem _ hc)


/-- C1 counterexample: the claim fails as stated.  First, the empty command
string has the extracted name `unknown`, which is not in the allowlist, yet
the Gate allows (the hook returns the empty decision before extraction).
Second, for `pkill sshd` the name `sshd` is not in the allowlist, the Gate
does block, but the reason comes from the pkill validator and does not name
the offending command `sshd`. -/
theorem C1_counterexample :
    ("unknown" ∈ extract_commands "" ∧ "unknown" ∉ ALLOWED_COMMANDS
      ∧ bash_security_hook "" = .allow)
    ∧ ("sshd" ∈ extract_commands "pkill sshd" ∧ "sshd" ∉ ALLOWED_COMMANDS
      ∧ bash_security_hook "pkill sshd" = .block pkill_deny_reason
      ∧ ¬ ("sshd".data <:+: pkill_deny_reason.data)) :=
  ⟨by decide, by decide, by decide, by decide,
    not_infix_of_occursIn_false pkill_deny_reason.data "sshd".data (by decide)⟩

/-- C1 (amended): for every non-empty command string in which some extracted
Invoked Name is not in the Allowlist, the Gate never allows; when every name
preceding the first non-allowlisted name is allowlisted and passes its extra
validation, the Gate blocks with the reason naming that first offending name,
and no name after it is examined (the loop result does not depend on the
names after the first offending one); the chained string
`ls && pkill npx && rm -rf /` is blocked. -/
theorem C1_gate_blocks_nonallowlisted :
    (∀ s : String, s ≠ "" →
      (∃ c ∈ extract_commands s, c ∉ ALLOWED_COMMANDS) →
      bash_security_hook s ≠ .allow)
    ∧ (∀ (s : String) (pre : List String) (bad : String) (rest rest₂ : List String),
        s ≠ "" →
        extract_commands s = pre ++ bad :: rest →
        (∀ c ∈ pre, c ∈ ALLOWED_COMMANDS ∧
          (c ∈ COMMANDS_NEEDING_EXTRA_VALIDATION →
            (run_extra_validation c (gateSegment s (split_command_segments s) c)).1 = true)) →
        bad ∉ ALLOWED_COMMANDS →
        gateLoop s (split_command_segments s) (pre ++ bad :: rest₂)
            = .block (notAllowedReason bad)
          ∧ bash_security_hook s = .block (notAllowedReason bad))
    ∧ bash_security_hook "ls && pkill npx && rm -rf /"
        = .block (notAllowedReason "npx") := by
  refine ⟨?_, ?_, by decide⟩
  · rintro s hs ⟨c, hc, hnc⟩ hallow
    rw [bash_security_hook_eq_loop s hs] at hallow
    exact hnc (gateLoop_allow_mem _ _ _ hallow c hc)
  · intro s pre bad rest rest₂ hs hext hpre hbad
    refine ⟨gateLoop_first_bad _ _ pre bad hpre hbad rest₂, ?_⟩
    rw [bash_security_hook_eq_loop s hs, hext]
    exact gateLoop_first_bad _ _ pre bad hpre hbad rest

/-- C1 witness: the amended theorem applied to the concrete string `rm x`. -/
theorem C1_gate_blocks_nonallowlisted_witness :
    bash_security_hook "rm x" = .block (notAllowedReason "rm") :=
  (C1_gate_blocks_nonallowlisted.2.1 "rm x" [] "rm" ["x"] ["x"] (by decide) (by decide)
    (by simp) (by decide)).2

/-- C2 counterexample: for the non-empty string `-x` extraction yields the
sentinel `["unknown"]`; the Gate blocks, but the reason is the allowlist
rejection of the sentinel, not the parse-failure reason of the dead
`if not commands` branch (security.py lines 159-163). -/
theorem C2_counterexample :
    extract_commands "-x" = ["unknown"]
    ∧ bash_security_hook "-x" = .block (notAllowedReason "unknown")
    ∧ notAllowedReason "unknown"
        ≠ "Could not parse command for security validation: -x" := by
  decide

/-- C2 (amended): for every non-empty command string for which the Command
Extractor yields the sentinel `["unknown"]`, the Gate blocks and never
allows; the reason is the allowlist rejection naming the sentinel
(`Command 'unknown' is not in the allowed commands list`), because the
dedicated parse-failure branch is unreachable — the extractor never returns
an empty list. -/
theorem C2_unknown_sentinel_blocks (s : String) (hs : s ≠ "")
    (h : extract_commands s = ["unknown"]) :
    bash_security_hook s = .block (notAllowedReason "unknown") := by
  rw [bash_security_hook_eq_loop s hs, h]
  simp only [gateLoop,
    if_neg (by decide : ¬ ("unknown" ∈ ALLOWED_COMMANDS))]

/-- C2 witness: the amended theorem applied to the concrete string `-x`. -/
theorem C2_unknown_sentinel_blocks_witness :
    bash_security_hook "-x" = .block (notAllowedReason "unknown") :=
  C2_unknown_sentinel_blocks "-x" (by decide) (by decide)

/-- C3: for every command string all of whose extracted Invoked Names are in
the Allowlist and none of which is in the Extra-Validation Set
`{pkill, chmod, init.sh}`, the Gate allows (returns the empty decision). -/
theorem C3_allowlisted_no_extra_allows (s : String)
    (h : ∀ c ∈ extract_commands s,
      c ∈ ALLOWED_COMMANDS ∧ c ∉ COMMANDS_NEEDING_EXTRA_VALIDATION) :
    bash_security_hook s = .allow := by
  by_cases hs : s = ""
  · rw [hs]; rfl
  · rw [bash_security_hook_eq_loop s hs]
    exact gateLoop_all_plain_allow s (split_command_segments s) (extract_commands s) h

/-- C3 witness: the theorem applied to the concrete string `ls pwd`. -/
theorem C3_allowlisted_no_extra_allows_witness :
    bash_security_hook "ls pwd" = .allow :=
  C3_allowlisted_no_extra_allows "ls pwd" (by decide)

/-- C7 counterexample: `&&` without surrounding whitespace is not treated as
a separator by the extractor (the pattern is `\s+&&\s+`), so extraction from
`a&&b` yields the single name `a&&b`, not the two names yielded by
`a && b`. -/
theorem C7_counterexample :
    extract_commands "a&&b" = ["a&&b"]
    ∧ extract_commands "a && b" = ["a", "b"]
    ∧ extract_commands "a&&b" ≠ extract_commands "a && b" := by
  decide

/-- C7 (amended): in step 1 of the Command Extractor the separators `;` and
`|` (and hence `||`) are replaced by spaces regardless of surrounding
whitespace — after the substitution pass no semicolon and no pipe character
remains in the flattened string — but `&&` is replaced only when whitespace
surrounds it on both sides: `a;b`, `a|b`, `a||b` and `a && b` each extract to
the two names `a`, `b`, while `a&&b` extracts to the single name `a&&b`. -/
theorem C7_separator_flattening :
    (∀ s : String, ';' ∉ flattenSeps s.data ∧ '|' ∉ flattenSeps s.data)
    ∧ extract_commands "a && b" = ["a", "b"]
    ∧ extract_commands "a;b" = ["a", "b"]
    ∧ extract_commands "a|b" = ["a", "b"]
    ∧ extract_commands "a||b" = ["a", "b"]
    ∧ extract_commands "a&&b" = ["a&&b"] :=
  ⟨fun s => ⟨flattenSeps_no_semi s.data, flattenSeps_no_pipe s.data⟩,
    by decide, by decide, by decide, by decide, by decide⟩

/-- C8: the Command Extractor skips tokens beginning with `-` or containing
`=` and normalizes the rest (path stripped, `.sh` kept whole, otherwise
truncated at the first dot, empty results dropped) — this is the content of
`normalizeToken` — and returns the surviving names duplicate-free in
first-occurrence order; extracting from `./init.sh --flag foo=bar` yields
exactly `["init.sh"]`. -/
theorem C8_extractor_normalization :
    (∀ s : String,
      (pySplit (flattenSeps s.data)).filterMap normalizeToken ≠ [] →
      extract_commands s
        = firstDedup ((pySplit (flattenSeps s.data)).filterMap normalizeToken))
    ∧ (∀ s : String, (extract_commands s).Nodup)
    ∧ extract_commands "./init.sh --flag foo=bar" = ["init.sh"]
    ∧ normalizeToken "--flag".data = none
    ∧ normalizeToken "foo=bar".data = none
    ∧ normalizeToken "./init.sh".data = some "init.sh"
    ∧ normalizeToken "a/b/c.d.e".data = some "c" := by
  refine ⟨?_, ?_, by decide, by decide, by decide, by decide, by decide⟩
  · intro s hne
    have hfold := extractLoop_eq_foldl (pySplit (flattenSeps s.data)) []
    have hcmds : extractLoop [] (pySplit (flattenSeps s.data)) ≠ [] := by
      rw [hfold]
      cases hn : (pySplit (flattenSeps s.data)).filterMap normalizeToken with
      | nil => exact absurd hn hne
      | cons x xs =>
          have hstep : (if x ∈ ([] : List String) then ([] : List String)
              else [] ++ [x]) = [x] := by simp
          rw [List.foldl_cons, hstep]
          exact dedupFoldl_ne_nil xs [x] (by simp)
    unfold extract_commands
    rw [if_neg hcmds, hfold]
    rfl
  · intro s
    unfold extract_commands
    split
    · exact List.nodup_singleton _
    · rw [extractLoop_eq_foldl]
      exact dedupFoldl_nodup _ [] List.nodup_nil

/-- C8 witness: the first conjunct applied to `./init.sh --flag foo=bar`. -/
theorem C8_extractor_normalization_witness :
    extract_commands "./init.sh --flag foo=bar"
      = firstDedup ((pySplit (flattenSeps "./init.sh --flag foo=bar".data)).filterMap
          normalizeToken) :=
  C8_extractor_normalization.1 "./init.sh --flag foo=bar" (by decide)

/-- C9: the Segmenter returns the trimmed non-empty sub-commands in order,
splitting on `&&`, `||` and `;`: the empty string is never among the
segments; an input containing none of the three separators yields the single
trimmed input (when that trim is non-empty); `a; b && c || d` yields exactly
the four segments `a`, `b`, `c`, `d` in order; consecutive separators as in
`a;;b` produce no empty segments. -/
theorem C9_segmenter :
    (∀ s : String, "" ∉ split_command_segments s)
    ∧ (∀ s : String,
        ¬ ("&&".data <:+: s.data) → ¬ ("||".data <:+: s.data) → ';' ∉ s.data →
        pyStrip s.data ≠ [] →
        split_command_segments s = [String.mk (pyStrip s.data)])
    ∧ split_command_segments "a; b && c || d" = ["a", "b", "c", "d"]
    ∧ split_command_segments "a;;b" = ["a", "b"] := by
  refine ⟨?_, split_command_segments_noSep, by decide, by decide⟩
  intro s h
  exact split_command_segments_ne_empty s "" h rfl

/-- C9 witness: the no-separator conjunct applied to `ls -la`. -/
theorem C9_segmenter_witness :
    split_command_segments "ls -la" = [String.mk (pyStrip "ls -la".data)] :=
  C9_segmenter.2.1 "ls -la"
    (not_infix_of_occursIn_false _ _ (by decide))
    (not_infix_of_occursIn_false _ _ (by decide))
    (by decide) (by decide)

/-- C10 (implicit): every whitespace token surviving the flag/assignment
filter is treated as an Invoked Name — its normalization appears in the
extractor output — including plain file or argument operands; consequently
the Gate blocks `cat README.md`, whose argument normalizes to the
non-allowlisted name `README`. -/
theorem C10_operands_are_names :
    (∀ (s : String) (p : List Char) (x : String),
      p ∈ pySplit (flattenSeps s.data) → normalizeToken p = some x →
      x ∈ extract_commands s)
    ∧ normalizeToken "README.md".data = some "README"
    ∧ "README" ∉ ALLOWED_COMMANDS
    ∧ bash_security_hook "cat README.md" = .block (notAllowedReason "README") := by
  refine ⟨?_, by decide, by decide, by decide⟩
  intro s p x hp hx
  have hmem : x ∈ extractLoop [] (pySplit (flattenSeps s.data)) := by
    rw [extractLoop_eq_foldl]
    exact dedupFoldl_mem_of_mem _ [] x (List.mem_filterMap.mpr ⟨p, hp, hx⟩)
  unfold extract_commands
  rw [if_neg (by intro hc; rw [hc] at hmem; cases hmem)]
  exact hmem

/-- C10 witness: the membership conjunct applied to the token `README.md` of
`cat README.md`. -/
theorem C10_operands_are_names_witness :
    "README" ∈ extract_commands "cat README.md" :=
  C10_operands_are_names.1 "cat README.md" "README.md".data "README"
    (by decide) (by decide)

theorem append_ne_empty_left (a t : String) (ha : a.data ≠ []) : a ++ t ≠ "" := by
  intro hc
  have hdata := congrArg String.data hc
  rw [String.data_append] at hdata
  exact ha (List.append_eq_nil.mp hdata).1

/-- C4: the script-execution validator, on a segment whose shell tokenization
is a non-empty token list, allows exactly when the first token is `./init.sh`
or ends with a path ending in the filename `init.sh` (a `/init.sh` suffix);
every other invocation form is denied with a non-empty reason; in particular
`./init.sh` is allowed and `sh init.sh` is blocked. -/
theorem C4_init_script_validator :
    (∀ (s t : String) (ts : List String),
      shlexSplit s = some (t :: ts) →
      ((validate_init_script s = (true, "")) ↔
        (t = "./init.sh" ∨ "/init.sh".data <:+ t.data))
      ∧ ((validate_init_script s).1 = false → (validate_init_script s).2 ≠ ""))
    ∧ validate_init_script "./init.sh" = (true, "")
    ∧ validate_init_script "sh init.sh"
        = (false, "Only ./init.sh is allowed, got: sh") := by
  refine ⟨?_, by decide, by decide⟩
  intro s t ts hsh
  have hval : validate_init_script s
      = if t = "./init.sh" || pyEndsWith t "/init.sh" then (true, "")
        else (false, "Only ./init.sh is allowed, got: " ++ t) := by
    unfold validate_init_script
    rw [hsh]
  refine ⟨?_, ?_⟩
  · rw [hval]
    constructor
    · intro hv
      split at hv
      · rename_i hcond
        rcases Bool.or_eq_true_iff.mp hcond with h1 | h2
        · exact Or.inl (of_decide_eq_true h1)
        · exact Or.inr (List.isSuffixOf_iff_suffix.mp h2)
      · exact absurd hv (by simp)
    · intro hrhs
      have hcond : (decide (t = "./init.sh") || pyEndsWith t "/init.sh") = true := by
        rcases hrhs with h1 | h2
        · simp [h1]
        · simp only [Bool.or_eq_true_iff]
          exact Or.inr (List.isSuffixOf_iff_suffix.mpr h2)
      rw [if_pos hcond]
  · rw [hval]
    split
    · intro h1
      exact absurd h1 (by simp)
    · intro _
      exact append_ne_empty_left _ t (by decide)

/-- C4 witness: the characterization applied to the concrete segment
`./init.sh`. -/
theorem C4_init_script_validator_witness :
    validate_init_script "./init.sh" = (true, "") :=
  (C4_init_script_validator.1 "./init.sh" "./init.sh" [] (by decide)).1.mpr
    (Or.inl rfl)

theorem chmodLoop_allow_iff :
    ∀ (rest : List String) (mode : String) (files : List String),
      chmodLoop (some mode) files rest = (true, "")
        ↔ ((∀ u ∈ rest, pyStartsWith u "-" = false)
            ∧ files ++ rest ≠ [] ∧ reMatchChmodMode mode = true) := by
  intro rest
  induction rest with
  | nil =>
      intro mode files
      simp only [chmodLoop, List.append_nil]
      by_cases hf : files = []
      · rw [if_pos hf]
        simp [hf]
      · rw [if_neg hf]
        by_cases hm : reMatchChmodMode mode
        · rw [if_pos hm]
          simp [hf, hm]
        · rw [if_neg hm]
          simp [hf, hm]
  | cons t ts ih =>
      intro mode files
      simp only [chmodLoop]
      by_cases ht : pyStartsWith t "-" = true
      · rw [if_pos ht]
        constructor
        · intro h
          exact absurd h (by simp)
        · rintro ⟨hfl, -, -⟩
          have hft := hfl t (List.mem_cons_self _ _)
          rw [ht] at hft
          exact absurd hft (by simp)
      · have ht' : pyStartsWith t "-" = false := by
          cases hv : pyStartsWith t "-"
          · rfl
          · exact absurd hv ht
        rw [if_neg ht, ih mode (files ++ [t])]
        constructor
        · rintro ⟨hfl, hne, hm⟩
          refine ⟨?_, by simp, hm⟩
          intro u hu
          rcases List.mem_cons.mp hu with rfl | hmem
          · exact ht'
          · exact hfl u hmem
        · rintro ⟨hfl, hne, hm⟩
          exact ⟨fun u hu => hfl u (List.mem_cons_of_mem _ hu), by simp, hm⟩

theorem chmodLoop_deny_reason :
    ∀ (rest : List String) (mode : Option String) (files : List String),
      (chmodLoop mode files rest).1 = false → (chmodLoop mode files rest).2 ≠ "" := by
  intro rest
  induction rest with
  | nil =>
      intro mode files
      cases mode with
      | none =>
          intro _
          simp only [chmodLoop]
          decide
      | some m =>
          simp only [chmodLoop]
          by_cases hf : files = []
          · rw [if_pos hf]
            intro _
            decide
          · rw [if_neg hf]
            by_cases hm : reMatchChmodMode m
            · rw [if_pos hm]
              intro h
              exact absurd h (by simp)
            · rw [if_neg hm]
              intro _
              exact append_ne_empty_left _ m (by decide)
  | cons t ts ih =>
      intro mode files
      simp only [chmodLoop]
      by_cases ht : pyStartsWith t "-" = true
      · rw [if_pos ht]
        intro _
        decide
      · rw [if_neg ht]
        cases mode with
        | none => exact ih (some t) files
        | some m => exact ih (some m) (files ++ [t])

/-- C5 counterexample: Python `$` also matches just before a trailing
newline, so the validator accepts the mode token with a trailing newline
obtained through shell quoting, although that token is not of the form
`[ugoa]*` followed by exactly `+x` (which is `chmodModeCore`). -/
theorem C5_counterexample :
    validate_chmod_command "chmod \x27u+x\n\x27 f" = (true, "")
    ∧ shlexSplit "chmod \x27u+x\n\x27 f" = some ["chmod", "u+x\n", "f"]
    ∧ chmodModeCore "u+x\n".data = false := by
  decide

/-- C5 (amended): the permission-change validator allows a segment exactly
when it tokenizes under shell quoting, the first token is literally `chmod`,
no subsequent token begins with `-`, a mode token is present and is accepted
by `re.match(r"^[ugoa]*\+x$", mode)` — i.e. consists of zero or more of the
symbols `u,g,o,a` followed by `+x`, optionally followed by one trailing
newline, since Python `$` also matches just before a trailing newline — and
at least one file token follows the mode; otherwise it denies with a
non-empty reason.  Mode `+x` with one file is allowed, `u+x` is allowed,
`755` is denied, and a segment carrying a flag token such as `-R` is
denied. -/
theorem C5_chmod_validator :
    (∀ (s : String) (toks : List String),
      shlexSplit s = some toks →
      ((validate_chmod_command s = (true, "")) ↔
        (∃ (mode f : String) (fs : List String),
          toks = "chmod" :: mode :: f :: fs
          ∧ (∀ u ∈ mode :: f :: fs, pyStartsWith u "-" = false)
          ∧ reMatchChmodMode mode = true))
      ∧ ((validate_chmod_command s).1 = false → (validate_chmod_command s).2 ≠ ""))
    ∧ validate_chmod_command "chmod +x a" = (true, "")
    ∧ validate_chmod_command "chmod u+x a" = (true, "")
    ∧ (validate_chmod_command "chmod 755 a").1 = false
    ∧ (validate_chmod_command "chmod -R +x f").1 = false := by
  refine ⟨?_, by decide, by decide, by decide, by decide⟩
  intro s toks hsh
  constructor
  · cases toks with
    | nil =>
        have hval : validate_chmod_command s = (false, "Not a chmod command") := by
          unfold validate_chmod_command
          rw [hsh]
        rw [hval]
        constructor
        · intro h
          exact absurd h (by simp)
        · rintro ⟨mode, f, fs, h, -, -⟩
          cases h
    | cons t ts =>
        have hval0 : validate_chmod_command s
            = if t = "chmod" then chmodLoop none [] ts
              else (false, "Not a chmod command") := by
          unfold validate_chmod_command
          rw [hsh]
        by_cases hT : t = "chmod"
        · subst hT
          have hval : validate_chmod_command s = chmodLoop none [] ts := by
            rw [hval0, if_pos rfl]
          rw [hval]
          cases ts with
          | nil =>
              constructor
              · intro h
                exact absurd h (by simp [chmodLoop])
              · rintro ⟨mode, f, fs, h, -, -⟩
                cases h
          | cons m rest =>
              simp only [chmodLoop]
              by_cases hm : pyStartsWith m "-" = true
              · rw [if_pos hm]
                constructor
                · intro h
                  exact absurd h (by simp)
                · rintro ⟨mode, f, fs, heq, hfl, -⟩
                  injection heq with h1 h2
                  injection h2 with h2a h2b
                  subst h2a
                  have hmm := hfl m (List.mem_cons_self _ _)
                  rw [hm] at hmm
                  exact absurd hmm (by simp)
              · have hm' : pyStartsWith m "-" = false := by
                  cases hv : pyStartsWith m "-"
                  · rfl
                  · exact absurd hv hm
                rw [if_neg hm, chmodLoop_allow_iff rest m []]
                constructor
                · rintro ⟨hfl, hne, hmatch⟩
                  cases rest with
                  | nil => simp at hne
                  | cons f fs =>
                      refine ⟨m, f, fs, rfl, ?_, hmatch⟩
                      intro u hu
                      rcases List.mem_cons.mp hu with rfl | humem
                      · exact hm'
                      · exact hfl u humem
                · rintro ⟨mode, f, fs, heq, hfl, hmatch⟩
                  injection heq with h1 h2
                  injection h2 with h2a h2b
                  subst h2a
                  subst h2b
                  refine ⟨?_, by simp, hmatch⟩
                  intro u hu
                  exact hfl u (List.mem_cons_of_mem _ hu)
        · have hval : validate_chmod_command s = (false, "Not a chmod command") := by
            rw [hval0, if_neg hT]
          rw [hval]
          constructor
          · intro h
            exact absurd h (by simp)
          · rintro ⟨mode, f, fs, heq, -, -⟩
            injection heq with h1 _
            exact absurd h1 hT
  · cases toks with
    | nil =>
        have hval : validate_chmod_command s = (false, "Not a chmod command") := by
          unfold validate_chmod_command
          rw [hsh]
        rw [hval]
        intro _
        decide
    | cons t ts =>
        have hval0 : validate_chmod_command s
            = if t = "chmod" then chmodLoop none [] ts
              else (false, "Not a chmod command") := by
          unfold validate_chmod_command
          rw [hsh]
        by_cases hT : t = "chmod"
        · subst hT
          have hval : validate_chmod_command s = chmodLoop none [] ts := by
            rw [hval0, if_pos rfl]
          rw [hval]
          exact chmodLoop_deny_reason ts none []
        · have hval : validate_chmod_command s = (false, "Not a chmod command") := by
            rw [hval0, if_neg hT]
          rw [hval]
          intro _
          decide

/-- C5 witness: the amended characterization applied to the concrete segment
`chmod +x a`. -/
theorem C5_chmod_validator_witness :
    validate_chmod_command "chmod +x a" = (true, "") :=
  ((C5_chmod_validator.1 "chmod +x a" ["chmod", "+x", "a"] (by decide)).1).mpr
    ⟨"+x", "a", [], rfl, by decide, by decide⟩

/-- C6 counterexample: the claim fails as stated in two ways.  First, the
validator never verifies that the first token is `pkill`: the segment
`foo node` is allowed although its first token is `foo`.  Second, the
first-word reduction of the target is triggered only by a literal space
character, not by arbitrary embedded whitespace: for the quoted target
containing a tab, whose first whitespace-separated word `node` is in the
allowed set, the validator denies. -/
theorem C6_counterexample :
    (validate_pkill_command "foo node" = (true, "")
      ∧ shlexSplit "foo node" = some ["foo", "node"])
    ∧ ((validate_pkill_command "pkill \x27node\tnode\x27").1 = false
      ∧ shlexSplit "pkill \x27node\tnode\x27" = some ["pkill", "node\tnode"]
      ∧ (pySplit "node\tnode".data).head? = some "node".data
      ∧ "node" ∈ allowed_process_names) := by
  decide

/-- C6 (amended): the process-termination validator, on a segment that
tokenizes under shell quoting into a non-empty token list, skips the first
token without checking it; it fails when no non-flag token follows the first;
the target is the last non-flag token, reduced to its first
whitespace-separated word only when it contains a space character; it allows
exactly when that target is in `{node, npm, npx, vite, next}` and otherwise
denies with the reason naming the allowed set;  `pkill node` is allowed and
`pkill -9 sshd` is denied. -/
theorem C6_pkill_validator :
    (∀ (s : String) (toks : List String), shlexSplit s = some toks → toks ≠ [] →
      ((toks.tail.filter (fun u => !pyStartsWith u "-")) = [] →
        validate_pkill_command s = (false, "pkill requires a process name"))
      ∧ (∀ (pre : List String) (t : String),
          (toks.tail.filter (fun u => !pyStartsWith u "-")) = pre ++ [t] →
          (' ' ∉ t.data →
            validate_pkill_command s
              = if t ∈ allowed_process_names then (true, "")
                else (false, pkill_deny_reason))
          ∧ (∀ (w : List Char) (ws : List (List Char)),
              ' ' ∈ t.data → pySplit t.data = w :: ws →
              validate_pkill_command s
                = if String.mk w ∈ allowed_process_names then (true, "")
                  else (false, pkill_deny_reason))))
    ∧ validate_pkill_command "pkill node" = (true, "")
    ∧ validate_pkill_command "pkill -9 sshd" = (false, pkill_deny_reason)
    ∧ occursIn "node".data pkill_deny_reason.data = true
    ∧ occursIn "npm".data pkill_deny_reason.data = true
    ∧ occursIn "npx".data pkill_deny_reason.data = true
    ∧ occursIn "vite".data pkill_deny_reason.data = true
    ∧ occursIn "next".data pkill_deny_reason.data = true := by
  refine ⟨?_, by decide, by decide, by decide, by decide, by decide, by decide, by decide⟩
  intro s toks hsh htoks
  have hval0 : validate_pkill_command s
      = if toks = [] then (false, "Empty pkill command")
        else
          match (toks.tail.filter (fun u => !pyStartsWith u "-")).getLast? with
          | none => (false, "pkill requires a process name")
          | some target0 =>
              if (if ' ' ∈ target0.data then pkillFirstWord target0 else target0)
                  ∈ allowed_process_names then (true, "")
              else (false, pkill_deny_reason) := by
    unfold validate_pkill_command
    rw [hsh]
  rw [if_neg htoks] at hval0
  constructor
  · intro hargs
    rw [hval0, hargs]
    rfl
  · intro pre t hargs
    have hval2 : validate_pkill_command s
        = if (if ' ' ∈ t.data then pkillFirstWord t else t) ∈ allowed_process_names
          then (true, "") else (false, pkill_deny_reason) := by
      rw [hval0, hargs, List.getLast?_concat]
    constructor
    · intro hsp
      rw [hval2, if_neg hsp]
    · intro w ws hsp hw
      rw [hval2, if_pos hsp]
      unfold pkillFirstWord
      rw [hw]

/-- C6 witness: the amended characterization applied to the concrete segment
`pkill node`. -/
theorem C6_pkill_validator_witness :
    validate_pkill_command "pkill node"
      = if "node" ∈ allowed_process_names then (true, "")
        else (false, pkill_deny_reason) :=
  ((C6_pkill_validator.1 "pkill node" ["pkill", "node"] (by decide) (by decide)).2
    [] "node" (by decide)).1 (by decide)
